import Mathlib

/-!
Verification of the google-fonts-downloader script (src/google-fonts-downloader.py).

The script downloads, for each requested font weight and each of two font
formats (woff, woff2), a CSS snippet from the Google Fonts API, extracts the
single binary-asset URL it references via the regular expression
FONT_URL_RE = r'src: url\((.*?)\).*?\n', downloads that asset, rewrites the
CSS to point at local filenames, and returns an insertion-ordered mapping
from local filename to byte content (fonts plus one combined CSS file).

The embedding below translates the script's core (get_base_filename,
download_font_files, FONT_URL_RE matching and substitution) into executable
Lean definitions.  HTTP is modelled as an environment of pure response
functions; byte contents are modelled as strings; Python's insertion-ordered
dict is modelled as an association list with in-place overwrite.
-/

namespace GF

/-- An HTTP response as the script observes it: the status code, the final
resolved URL (response attribute consulted for diagnostics and error
messages), and the body (text for CSS responses, bytes for assets, both
modelled as strings). -/
structure HttpResponse where
  status : Nat
  url : String
  body : String

/-- The HTTP environment.  getCss models
requests.get(GOOGLE_FONTS_API, headers=agent, params=family/subset) and is a
function of the User-Agent header value, the family query parameter
("family:weight") and the subset query parameter (comma-joined subsets).
getAsset models requests.get(font_url, headers=agent). -/
structure Http where
  getCss : String → String → String → HttpResponse
  getAsset : String → String → HttpResponse

/-- The exceptions the core can raise: requests' HTTPError from
raise_for_status (carrying the status), the RuntimeError raised when the
pattern does not match exactly once (carrying the response URL interpolated
into its message), and the IndexError from rsplit('.', 1)[1] on a URL
without a dot. -/
inductive Err where
  | httpError (status : Nat)
  | patternMatchError (url : String)
  | indexError
deriving DecidableEq

/-- requests.Response.raise_for_status raises exactly for status codes in
[400, 600). -/
def isFailureStatus (s : Nat) : Bool :=
  400 ≤ s && s < 600

def WOFF_USER_AGENT : String :=
  "Mozilla/5.0 (Windows NT 6.1; WOW64; rv:27.0) Gecko/20100101 Firefox/27.0"

def WOFF2_USER_AGENT : String :=
  "Mozilla/5.0 (Windows NT 6.3; rv:39.0) Gecko/20100101 Firefox/39.0"

/-- One entry of FONT_FORMATS: the CSS format identifier and the User-Agent
string used to bias the server's format selection. -/
structure FontFormat where
  format : String
  agent : String
deriving DecidableEq

def woffFormat : FontFormat := ⟨"woff", WOFF_USER_AGENT⟩

def woff2Format : FontFormat := ⟨"woff2", WOFF2_USER_AGENT⟩

/-- FONT_FORMATS = [{'format': 'woff', ...}, {'format': 'woff2', ...}]. -/
def FONT_FORMATS : List FontFormat := [woffFormat, woff2Format]

/-- Python's sep.join(xs). -/
def pyJoin (sep : String) : List String → String
  | [] => ""
  | [x] => x
  | x :: y :: ys => x ++ sep ++ pyJoin sep (y :: ys)

/-- Python's str.lower restricted to the ASCII range (the script only ever
lower-cases a font family name). -/
def lowerAscii (s : String) : String := ⟨s.data.map Char.toLower⟩

/-- Python's str.replace(' ', '_'): with a one-character pattern this is a
per-character replacement. -/
def replaceSpaces (s : String) : String :=
  ⟨s.data.map (fun c => if c = ' ' then '_' else c)⟩

/-- get_base_filename(family, subsets) =
'{}-{}'.format(family.lower().replace(' ', '_'), '_'.join(subsets)). -/
def get_base_filename (family : String) (subsets : List String) : String :=
  replaceSpaces (lowerAscii family) ++ "-" ++ pyJoin "_" subsets

/-- The italic expansion at the top of download_font_files:
italic_weights = [w + 'i' for w in weights];
weights = [val for pair in zip(weights, italic_weights) for val in pair]. -/
def expandWeights (weights : List String) (italic : Bool) : List String :=
  if italic then
    ((weights.zip (weights.map (fun w => w ++ "i"))).map (fun p => [p.1, p.2])).flatten
  else weights

/-- Python's weight.endswith('i'): true exactly when the string is
non-empty and its last character is 'i'. -/
def pyEndsWithI (w : String) : Bool :=
  match w.data.getLast? with
  | some c => c = 'i'
  | none => false

/-- The weight label interpolated into the local filename:
weight + 'talic' if weight.endswith('i') else weight. -/
def weightLabel (weight : String) : String :=
  if pyEndsWithI weight then weight ++ "talic" else weight

/-- The suffix of l after the last occurrence of c, if c occurs in l. -/
def afterLast (c : Char) : List Char → Option (List Char)
  | [] => none
  | x :: xs =>
    match afterLast c xs with
    | some r => some r
    | none => if x = c then some xs else none

/-- font_url.rsplit('.', maxsplit=1)[1]: the part of the URL after its last
dot.  Python's rsplit returns a one-element list when there is no dot, so
indexing [1] raises IndexError; that case is modelled by none. -/
def urlExtension (url : String) : Option String :=
  (afterLast '.' url.data).map (fun l => ⟨l⟩)

/-- The URL's last path segment: the part after the last '/', or the whole
URL when it has no '/'.  (Used only to state the specification's version of
the extension derivation; the script itself rsplits the whole URL.) -/
def lastPathSegment (url : String) : List Char :=
  (afterLast '/' url.data).getD url.data

/-- The suffix after the final dot of the URL's last path segment, as the
specification describes the extension derivation. -/
def specLastSegmentExt (url : String) : Option String :=
  (afterLast '.' (lastPathSegment url)).map (fun l => ⟨l⟩)

/-! ### The regular expression FONT_URL_RE = r'src: url\((.*?)\).*?\n'

A match consists of the literal "src: url(", then a lazily matched group of
non-newline characters up to the first ')', then non-newline characters up
to the first '\n', inclusive.  Since '.' does not match '\n' and both
quantifiers are lazy, a match starting at a given position exists exactly
when the literal is present, some ')' occurs before the next '\n', and some
'\n' occurs after that ')'; the group runs to the first such ')' and the
match to the first '\n' after it. -/

/-- Strip the literal pattern p from the front of s. -/
def dropLit : List Char → List Char → Option (List Char)
  | [], s => some s
  | _ :: _, [] => none
  | p :: ps, c :: cs => if c = p then dropLit ps cs else none

/-- Split at the first occurrence of c: l = before ++ c :: after. -/
def splitAtFirst (c : Char) : List Char → Option (List Char × List Char)
  | [] => none
  | x :: xs =>
    if x = c then some ([], xs)
    else
      match splitAtFirst c xs with
      | some (a, b) => some (x :: a, b)
      | none => none

def srcUrlLit : List Char := "src: url(".data

/-- Try to match FONT_URL_RE at the start of s.  On success returns
(group 1, the full matched span, the remainder of s after the match). -/
def matchAt (s : List Char) : Option (List Char × List Char × List Char) :=
  match dropLit srcUrlLit s with
  | none => none
  | some rest1 =>
    match splitAtFirst ')' rest1 with
    | none => none
    | some (a, rest2) =>
      if a.contains '\n' then none
      else
        match splitAtFirst '\n' rest2 with
        | none => none
        | some (b, rest3) =>
          some (a, srcUrlLit ++ a ++ ')' :: (b ++ ['\n']), rest3)

/-- Fuelled scan for all non-overlapping matches, left to right, as
re.finditer does: on a match, continue after the matched span; otherwise
advance one character.  Fuel bounds the number of scan steps. -/
def findMatchesF : Nat → List Char → List (List Char × List Char)
  | 0, _ => []
  | _ + 1, [] => []
  | fuel + 1, c :: rest =>
    match matchAt (c :: rest) with
    | some (cap, m, after) => (cap, m) :: findMatchesF fuel after
    | none => findMatchesF fuel rest

/-- All matches of FONT_URL_RE in s (group 1 and full span for each), in
order, as list(FONT_URL_RE.finditer(s)). -/
def findMatches (s : List Char) : List (List Char × List Char) :=
  findMatchesF s.length s

/-- Fuelled substitution of every match by repl, as re.sub. -/
def reSubF (repl : List Char) : Nat → List Char → List Char
  | 0, s => s
  | _ + 1, [] => []
  | fuel + 1, c :: rest =>
    match matchAt (c :: rest) with
    | some (_, _, after) => repl ++ reSubF repl fuel after
    | none => c :: reSubF repl fuel rest

/-- FONT_URL_RE.sub(repl, s).  (The script's replacement strings contain no
backslash escapes, so the replacement is inserted literally.) -/
def reSub (repl s : List Char) : List Char :=
  reSubF repl s.length s

/-- String-level view of findMatches. -/
def findMatchesStr (s : String) : List (String × String) :=
  (findMatches s.data).map (fun p => (⟨p.1⟩, ⟨p.2⟩))

/-- String-level view of reSub. -/
def reSubStr (repl s : String) : String :=
  ⟨reSub repl.data s.data⟩

/-! ### The download loops of download_font_files -/

/-- Python's ordered dict assignment files[k] = v: overwrite in place when
the key is present (keeping its original position), otherwise append. -/
def dictInsert (m : List (String × String)) (k v : String) :
    List (String × String) :=
  if m.any (fun p => p.1 = k) then
    m.map (fun p => if p.1 = k then (k, v) else p)
  else m ++ [(k, v)]

/-- The body of the inner for-loop of download_font_files for one font
format: fetch the CSS (raise_for_status), require exactly one FONT_URL_RE
match, fetch the asset at the captured URL (raise_for_status), derive the
extension by rsplit on '.', and build the local filename.  Returns the
filename, the downloaded content, and the CSS text retained as css_part. -/
def stepFormat (http : Http) (family weight base subsetParam : String)
    (ff : FontFormat) : Except Err (String × String × String) :=
  let r := http.getCss ff.agent (family ++ ":" ++ weight) subsetParam
  if isFailureStatus r.status then .error (.httpError r.status)
  else
    let css_part := r.body
    match findMatchesStr r.body with
    | [m] =>
      let font_url := m.1
      let r2 := http.getAsset ff.agent font_url
      if isFailureStatus r2.status then .error (.httpError r2.status)
      else
        match urlExtension font_url with
        | some ext =>
          .ok (base ++ "-" ++ weightLabel weight ++ "." ++ ext, r2.body, css_part)
        | none => .error .indexError
    | _ => .error (.patternMatchError r.url)

/-- The inner for-loop over FONT_FORMATS, threading the files dict, the
font_format_filenames list and the most recent css_part. -/
def formatsLoop (http : Http) (family weight base subsetParam : String) :
    List (String × String) → List (FontFormat × String) → String →
    List FontFormat →
    Except Err (List (String × String) × List (FontFormat × String) × String)
  | files, fff, css_part, [] => .ok (files, fff, css_part)
  | files, fff, _, ff :: rest =>
    match stepFormat http family weight base subsetParam ff with
    | .error e => .error e
    | .ok (filename, content, cp) =>
      formatsLoop http family weight base subsetParam
        (dictInsert files filename content) (fff ++ [(ff, filename)]) cp rest

/-- The generated src declaration for one weight:
sources = [url('<file>') format('<fmt>') for reversed(font_format_filenames)];
new_src = 'src: {};\n'.format(',\n       '.join(sources)). -/
def buildNewSrc (fff : List (FontFormat × String)) : String :=
  "src: " ++
    pyJoin ",\n       "
      (fff.reverse.map (fun f => "url('" ++ f.2 ++ "') format('" ++ f.1.format ++ "')")) ++
    ";\n"

/-- The outer for-loop over weights, threading the files dict and the list
of per-weight CSS snippets. -/
def weightsLoop (http : Http) (family base subsetParam : String) :
    List (String × String) → List String → List String →
    Except Err (List (String × String) × List String)
  | files, css, [] => .ok (files, css)
  | files, css, weight :: rest =>
    match formatsLoop http family weight base subsetParam files [] "" FONT_FORMATS with
    | .error e => .error e
    | .ok (files2, fff, css_part) =>
      weightsLoop http family base subsetParam files2
        (css ++ [reSubStr (buildNewSrc fff) css_part]) rest

/-- download_font_files(family, weights, subsets, italic): expand the
weights, run the nested download loops, then store the blank-line-joined
CSS under '<base_filename>.css' and return the mapping. -/
def download_font_files (http : Http) (family : String)
    (weights subsets : List String) (italic : Bool) :
    Except Err (List (String × String)) :=
  let ws := expandWeights weights italic
  let base := get_base_filename family subsets
  match weightsLoop http family base (pyJoin "," subsets) [] [] ws with
  | .error e => .error e
  | .ok (files, css) => .ok (dictInsert files (base ++ ".css") (pyJoin "\n" css))

/-! ### Derived observers of the per-format step (used to state results) -/

/-- A Bool recording whether the per-format step succeeds (no exception). -/
def stepSucceeds (http : Http) (family weight base subsetParam : String)
    (ff : FontFormat) : Bool :=
  match stepFormat http family weight base subsetParam ff with
  | .ok _ => true
  | .error _ => false

/-- The local filename produced by a successful per-format step. -/
def stepFnName (http : Http) (family weight base subsetParam : String)
    (ff : FontFormat) : String :=
  match stepFormat http family weight base subsetParam ff with
  | .ok (f, _, _) => f
  | .error _ => ""

/-- The downloaded content produced by a successful per-format step. -/
def stepContent (http : Http) (family weight base subsetParam : String)
    (ff : FontFormat) : String :=
  match stepFormat http family weight base subsetParam ff with
  | .ok (_, c, _) => c
  | .error _ => ""

/-- The CSS text retained by a successful per-format step. -/
def stepCssPart (http : Http) (family weight base subsetParam : String)
    (ff : FontFormat) : String :=
  match stepFormat http family weight base subsetParam ff with
  | .ok (_, _, cp) => cp
  | .error _ => ""

/-- The two (filename, content) pairs a weight stores into the mapping, in
format-list order. -/
def weightEntries (http : Http) (family base subsetParam w : String) :
    List (String × String) :=
  [(stepFnName http family w base subsetParam woffFormat,
    stepContent http family w base subsetParam woffFormat),
   (stepFnName http family w base subsetParam woff2Format,
    stepContent http family w base subsetParam woff2Format)]

/-- The CSS snippet appended for a weight: the new src declaration
substituted into the retained (woff2) CSS text. -/
def weightSnippet (http : Http) (family base subsetParam w : String) : String :=
  reSubStr
    (buildNewSrc
      [(woffFormat, stepFnName http family w base subsetParam woffFormat),
       (woff2Format, stepFnName http family w base subsetParam woff2Format)])
    (stepCssPart http family w base subsetParam woff2Format)

/-! ### Small concrete HTTP environments (used to instantiate results) -/

/-- A well-behaved environment: the CSS endpoint answers a woff body to the
woff User-Agent and a woff2 body otherwise; assets download fine. -/
def httpGood : Http where
  getCss := fun agent _ _ =>
    if agent = WOFF_USER_AGENT then ⟨200, "cssu", "src: url(u.woff)x\n"⟩
    else ⟨200, "cssv", "src: url(v.woff2)x\n"⟩
  getAsset := fun _ url => ⟨200, url, "B" ++ url⟩

/-- An environment whose CSS endpoint always answers 404. -/
def httpBadStatus : Http where
  getCss := fun _ _ _ => ⟨404, "cssbad", ""⟩
  getAsset := fun _ url => ⟨200, url, ""⟩

/-- An environment whose CSS body contains no src-url declaration. -/
def httpNoMatch : Http where
  getCss := fun _ _ _ => ⟨200, "cssnm", "no fonts here\n"⟩
  getAsset := fun _ url => ⟨200, url, ""⟩

/-- An environment whose CSS body references an asset URL without a dot. -/
def httpNoDot : Http where
  getCss := fun _ _ _ => ⟨200, "cssnd", "src: url(nodot)x\n"⟩
  getAsset := fun _ url => ⟨200, url, ""⟩

/-- An environment whose asset endpoint always answers 500. -/
def httpAssetFail : Http where
  getCss := fun _ _ _ => ⟨200, "cssaf", "src: url(u.woff)x\n"⟩
  getAsset := fun _ url => ⟨500, url, ""⟩

/-! ### Helper lemmas about the regex engine -/

theorem dropLit_eq : ∀ (p s r : List Char), dropLit p s = some r → s = p ++ r
  | [], s, r, h => by simp only [dropLit, Option.some.injEq] at h; simp [h]
  | _ :: _, [], _, h => by simp [dropLit] at h
  | p :: ps, c :: cs, r, h => by
    simp only [dropLit] at h
    split at h
    · next hc =>
      have := dropLit_eq ps cs r h
      simp [hc, this]
    · exact absurd h (by simp)

theorem splitAtFirst_eq : ∀ (c : Char) (s a b : List Char),
    splitAtFirst c s = some (a, b) → s = a ++ c :: b
  | c, [], a, b, h => by simp [splitAtFirst] at h
  | c, x :: xs, a, b, h => by
    simp only [splitAtFirst] at h
    split at h
    · next hx =>
      simp only [Option.some.injEq, Prod.mk.injEq] at h
      obtain ⟨rfl, rfl⟩ := h
      simp [hx]
    · next hx =>
      split at h
      · next a' b' heq =>
        simp only [Option.some.injEq, Prod.mk.injEq] at h
        obtain ⟨rfl, rfl⟩ := h
        have := splitAtFirst_eq c xs a' b' heq
        simp [this]
      · exact absurd h (by simp)

theorem matchAt_decomp (s cap m after : List Char)
    (h : matchAt s = some (cap, m, after)) : s = m ++ after ∧ m ≠ [] := by
  unfold matchAt at h
  split at h
  · exact absurd h (by simp)
  · next rest1 hdrop =>
    split at h
    · exact absurd h (by simp)
    · next a rest2 hsplit1 =>
      split at h
      · exact absurd h (by simp)
      · split at h
        · exact absurd h (by simp)
        · next b rest3 hsplit2 =>
          simp only [Option.some.injEq, Prod.mk.injEq] at h
          obtain ⟨rfl, rfl, rfl⟩ := h
          have h1 := dropLit_eq _ _ _ hdrop
          have h2 := splitAtFirst_eq _ _ _ _ hsplit1
          have h3 := splitAtFirst_eq _ _ _ _ hsplit2
          constructor
          · subst h1; subst h2; subst h3
            simp
          · simp [srcUrlLit]

theorem matchAt_after_lt (s cap m after : List Char)
    (h : matchAt s = some (cap, m, after)) : after.length < s.length := by
  obtain ⟨hs, hm⟩ := matchAt_decomp s cap m after h
  subst hs
  cases m with
  | nil => exact absurd rfl hm
  | cons c cs => simp; omega

theorem findMatchesF_congr : ∀ (f₁ f₂ : Nat) (s : List Char),
    s.length ≤ f₁ → s.length ≤ f₂ → findMatchesF f₁ s = findMatchesF f₂ s
  | f₁, f₂, [], _, _ => by cases f₁ <;> cases f₂ <;> simp [findMatchesF]
  | 0, _, c :: rest, h₁, _ => by simp at h₁
  | _ + 1, 0, c :: rest, _, h₂ => by simp at h₂
  | f₁ + 1, f₂ + 1, c :: rest, h₁, h₂ => by
    simp only [findMatchesF]
    cases heq : matchAt (c :: rest) with
    | none =>
      exact findMatchesF_congr f₁ f₂ rest (by simp at h₁; omega) (by simp at h₂; omega)
    | some t =>
      obtain ⟨cap, m, after⟩ := t
      have hlt := matchAt_after_lt _ _ _ _ heq
      simp only [List.length_cons] at hlt h₁ h₂
      show (cap, m) :: findMatchesF f₁ after = (cap, m) :: findMatchesF f₂ after
      congr 1
      exact findMatchesF_congr f₁ f₂ after (by omega) (by omega)

theorem findMatches_cons (c : Char) (rest : List Char) :
    findMatches (c :: rest) =
      match matchAt (c :: rest) with
      | some (cap, m, after) => (cap, m) :: findMatches after
      | none => findMatches rest := by
  show findMatchesF (rest.length + 1) (c :: rest) = _
  cases heq : matchAt (c :: rest) with
  | none => simp only [findMatchesF, heq]; rfl
  | some t =>
    obtain ⟨cap, m, after⟩ := t
    have hlt := matchAt_after_lt _ _ _ _ heq
    simp only [List.length_cons] at hlt
    simp only [findMatchesF, heq]
    congr 1
    exact findMatchesF_congr rest.length after.length after (by omega) (by omega)

theorem reSubF_congr : ∀ (repl : List Char) (f₁ f₂ : Nat) (s : List Char),
    s.length ≤ f₁ → s.length ≤ f₂ → reSubF repl f₁ s = reSubF repl f₂ s
  | _, f₁, f₂, [], _, _ => by cases f₁ <;> cases f₂ <;> simp [reSubF]
  | _, 0, _, c :: rest, h₁, _ => by simp at h₁
  | _, _ + 1, 0, c :: rest, _, h₂ => by simp at h₂
  | repl, f₁ + 1, f₂ + 1, c :: rest, h₁, h₂ => by
    simp only [reSubF]
    cases heq : matchAt (c :: rest) with
    | none =>
      rw [reSubF_congr repl f₁ f₂ rest (by simp at h₁; omega) (by simp at h₂; omega)]
    | some t =>
      obtain ⟨cap, m, after⟩ := t
      have hlt := matchAt_after_lt _ _ _ _ heq
      simp only [List.length_cons] at hlt h₁ h₂
      show repl ++ reSubF repl f₁ after = repl ++ reSubF repl f₂ after
      rw [reSubF_congr repl f₁ f₂ after (by omega) (by omega)]

theorem reSub_cons (repl : List Char) (c : Char) (rest : List Char) :
    reSub repl (c :: rest) =
      match matchAt (c :: rest) with
      | some (_, _, after) => repl ++ reSub repl after
      | none => c :: reSub repl rest := by
  show reSubF repl (rest.length + 1) (c :: rest) = _
  cases heq : matchAt (c :: rest) with
  | none => simp only [reSubF, heq]; rfl
  | some t =>
    obtain ⟨cap, m, after⟩ := t
    have hlt := matchAt_after_lt _ _ _ _ heq
    simp only [List.length_cons] at hlt
    simp only [reSubF, heq]
    rw [reSubF_congr repl rest.length after.length after (by omega) (by omega)]
    rfl

theorem reSub_of_no_match : ∀ (n : Nat) (s : List Char), s.length ≤ n →
    findMatches s = [] → ∀ repl, reSub repl s = s
  | _, [], _, _, repl => by simp [reSub, reSubF]
  | 0, c :: rest, h, _, _ => by simp at h
  | n + 1, c :: rest, h, hfm, repl => by
    rw [findMatches_cons] at hfm
    rw [reSub_cons]
    cases heq : matchAt (c :: rest) with
    | some t =>
      obtain ⟨cap, m, after⟩ := t
      rw [heq] at hfm
      simp at hfm
    | none =>
      rw [heq] at hfm
      simp only [List.length_cons] at h
      rw [reSub_of_no_match n rest (by omega) hfm repl]

theorem findMatches_head_decomp : ∀ (n : Nat) (s : List Char), s.length ≤ n →
    ∀ (cap m : List Char) (ms : List (List Char × List Char)),
      findMatches s = (cap, m) :: ms →
      ∃ pre after, s = pre ++ m ++ after ∧ findMatches after = ms ∧
        ∀ repl, reSub repl s = pre ++ repl ++ reSub repl after
  | _, [], _, cap, m, ms, hfm => by simp [findMatches, findMatchesF] at hfm
  | 0, c :: rest, h, _, _, _, _ => by simp at h
  | n + 1, c :: rest, h, cap, m, ms, hfm => by
    rw [findMatches_cons] at hfm
    cases heq : matchAt (c :: rest) with
    | some t =>
      obtain ⟨cap', m', after'⟩ := t
      rw [heq] at hfm
      simp only [List.cons.injEq, Prod.mk.injEq] at hfm
      obtain ⟨⟨rfl, rfl⟩, rfl⟩ := hfm
      refine ⟨[], after', ?_, rfl, ?_⟩
      · simpa using (matchAt_decomp _ _ _ _ heq).1
      · intro repl
        rw [reSub_cons, heq]
        simp
    | none =>
      rw [heq] at hfm
      simp only [List.length_cons] at h
      obtain ⟨pre, after, h1, h2, h3⟩ :=
        findMatches_head_decomp n rest (by omega) cap m ms hfm
      refine ⟨c :: pre, after, by simp [h1], h2, fun repl => ?_⟩
      rw [reSub_cons, heq, h3 repl]
      simp

/-! ### Helper lemmas about afterLast (rsplit modelling) -/

theorem afterLast_isSome : ∀ (c : Char) (l : List Char),
    (afterLast c l).isSome = true ↔ c ∈ l
  | c, [] => by simp [afterLast]
  | c, x :: xs => by
    have ih := afterLast_isSome c xs
    simp only [afterLast, List.mem_cons]
    cases h : afterLast c xs with
    | some r =>
      rw [h] at ih
      simp only [Option.isSome_some, true_iff] at ih
      simp [ih]
    | none =>
      rw [h] at ih
      simp only [Option.isSome_none, Bool.false_eq_true, false_iff] at ih
      by_cases hxc : x = c
      · simp [hxc]
      · have hcx : ¬ c = x := fun hcx => hxc hcx.symm
        simp [hxc, ih, hcx]

theorem afterLast_eq_some : ∀ (c : Char) (l r : List Char),
    afterLast c l = some r → ∃ p, l = p ++ c :: r
  | c, [], r, h => by simp [afterLast] at h
  | c, x :: xs, r, h => by
    simp only [afterLast] at h
    cases h' : afterLast c xs with
    | some r' =>
      rw [h'] at h
      simp only [Option.some.injEq] at h
      subst h
      obtain ⟨p, hp⟩ := afterLast_eq_some c xs r' h'
      exact ⟨x :: p, by simp [hp]⟩
    | none =>
      rw [h'] at h
      simp only at h
      split at h
      · next hxc =>
        simp only [Option.some.injEq] at h
        exact ⟨[], by simp [hxc, h]⟩
      · exact absurd h (by simp)

theorem afterLast_append_right : ∀ (c : Char) (a b r : List Char),
    afterLast c b = some r → afterLast c (a ++ b) = some r
  | c, [], b, r, h => h
  | c, x :: a', b, r, h => by
    have ih := afterLast_append_right c a' b r h
    show afterLast c (x :: (a' ++ b)) = some r
    simp only [afterLast]
    rw [ih]

/-! ### Helper lemmas about dictInsert and the download loops -/

theorem dictInsert_keys (m : List (String × String)) (k v : String) :
    (dictInsert m k v).map Prod.fst =
      if m.any (fun p => p.1 = k) then m.map Prod.fst
      else m.map Prod.fst ++ [k] := by
  unfold dictInsert
  split
  · next h =>
    simp only [if_pos h, List.map_map]
    exact List.map_congr_left (fun p _ => by by_cases hp : p.1 = k <;> simp [hp])
  · next h => simp [if_neg h]

theorem dictInsert_keys_nodup (m : List (String × String)) (k v : String)
    (h : (m.map Prod.fst).Nodup) : ((dictInsert m k v).map Prod.fst).Nodup := by
  rw [dictInsert_keys]
  split
  · exact h
  · next hany =>
    have hk : k ∉ m.map Prod.fst := by
      intro hmem
      apply hany
      obtain ⟨p, hp, hpk⟩ := List.mem_map.mp hmem
      exact List.any_eq_true.mpr ⟨p, hp, by simp [hpk]⟩
    simp [List.nodup_append, h, hk]

theorem dictInsert_fresh (m : List (String × String)) (k v : String)
    (h : k ∉ m.map Prod.fst) : dictInsert m k v = m ++ [(k, v)] := by
  unfold dictInsert
  rw [if_neg]
  intro hany
  obtain ⟨p, hp, hpk⟩ := List.any_eq_true.mp hany
  exact h (List.mem_map.mpr ⟨p, hp, by simpa using hpk⟩)

theorem stepFormat_eq_of_succeeds (http : Http)
    (family weight base subsetParam : String) (ff : FontFormat)
    (h : stepSucceeds http family weight base subsetParam ff = true) :
    stepFormat http family weight base subsetParam ff =
      .ok (stepFnName http family weight base subsetParam ff,
           stepContent http family weight base subsetParam ff,
           stepCssPart http family weight base subsetParam ff) := by
  unfold stepSucceeds at h
  unfold stepFnName stepContent stepCssPart
  cases hs : stepFormat http family weight base subsetParam ff with
  | error e => rw [hs] at h; simp at h
  | ok v => obtain ⟨f, c, cp⟩ := v; rfl

theorem formatsLoop_font_formats (http : Http)
    (family weight base subsetParam : String)
    (files : List (String × String)) (fff : List (FontFormat × String))
    (cp0 : String) :
    formatsLoop http family weight base subsetParam files fff cp0 FONT_FORMATS =
      match stepFormat http family weight base subsetParam woffFormat with
      | .error e => .error e
      | .ok (fn1, c1, _) =>
        match stepFormat http family weight base subsetParam woff2Format with
        | .error e => .error e
        | .ok (fn2, c2, cp2) =>
          .ok (dictInsert (dictInsert files fn1 c1) fn2 c2,
               fff ++ [(woffFormat, fn1), (woff2Format, fn2)], cp2) := by
  show formatsLoop http family weight base subsetParam files fff cp0
      [woffFormat, woff2Format] = _
  cases h1 : stepFormat http family weight base subsetParam woffFormat with
  | error e => simp [formatsLoop, h1]
  | ok v1 =>
    obtain ⟨fn1, c1, cp1⟩ := v1
    cases h2 : stepFormat http family weight base subsetParam woff2Format with
    | error e => simp [formatsLoop, h1, h2]
    | ok v2 =>
      obtain ⟨fn2, c2, cp2⟩ := v2
      simp [formatsLoop, h1, h2]

theorem formatsLoop_error_head (http : Http)
    (family weight base subsetParam : String)
    (files : List (String × String)) (fff : List (FontFormat × String))
    (cp : String) (ff : FontFormat) (fmts : List FontFormat) (e : Err)
    (h : stepFormat http family weight base subsetParam ff = .error e) :
    formatsLoop http family weight base subsetParam files fff cp (ff :: fmts) =
      .error e := by
  simp [formatsLoop, h]

theorem weightsLoop_error_head (http : Http) (family base subsetParam : String)
    (files : List (String × String)) (css : List String)
    (weight : String) (rest : List String) (e : Err)
    (h : formatsLoop http family weight base subsetParam files [] "" FONT_FORMATS =
      .error e) :
    weightsLoop http family base subsetParam files css (weight :: rest) =
      .error e := by
  simp [weightsLoop, h]

theorem download_eq_error (http : Http) (family : String)
    (weights subsets : List String) (italic : Bool) (e : Err)
    (h : weightsLoop http family (get_base_filename family subsets)
        (pyJoin "," subsets) [] [] (expandWeights weights italic) = .error e) :
    download_font_files http family weights subsets italic = .error e := by
  simp [download_font_files, h]

theorem stepFormat_cssFail (http : Http) (family weight base subsetParam : String)
    (ff : FontFormat)
    (h : isFailureStatus
      (http.getCss ff.agent (family ++ ":" ++ weight) subsetParam).status = true) :
    stepFormat http family weight base subsetParam ff =
      .error (.httpError
        (http.getCss ff.agent (family ++ ":" ++ weight) subsetParam).status) := by
  unfold stepFormat
  rw [if_pos h]

theorem stepFormat_patternFail (http : Http)
    (family weight base subsetParam : String) (ff : FontFormat)
    (h1 : isFailureStatus
      (http.getCss ff.agent (family ++ ":" ++ weight) subsetParam).status = false)
    (h2 : (findMatchesStr
      (http.getCss ff.agent (family ++ ":" ++ weight) subsetParam).body).length ≠ 1) :
    stepFormat http family weight base subsetParam ff =
      .error (.patternMatchError
        (http.getCss ff.agent (family ++ ":" ++ weight) subsetParam).url) := by
  unfold stepFormat
  rw [if_neg (by simp [h1])]
  cases hm : findMatchesStr
      (http.getCss ff.agent (family ++ ":" ++ weight) subsetParam).body with
  | nil => rfl
  | cons a t =>
    cases t with
    | nil => exact absurd (by simp [hm]) h2
    | cons b t' => rfl

theorem stepFormat_assetFail (http : Http)
    (family weight base subsetParam : String) (ff : FontFormat)
    (cap m : String)
    (h1 : isFailureStatus
      (http.getCss ff.agent (family ++ ":" ++ weight) subsetParam).status = false)
    (h2 : findMatchesStr
      (http.getCss ff.agent (family ++ ":" ++ weight) subsetParam).body = [(cap, m)])
    (h3 : isFailureStatus (http.getAsset ff.agent cap).status = true) :
    stepFormat http family weight base subsetParam ff =
      .error (.httpError (http.getAsset ff.agent cap).status) := by
  unfold stepFormat
  rw [if_neg (by simp [h1]), h2]
  simp only
  rw [if_pos h3]

theorem stepFormat_noDot (http : Http)
    (family weight base subsetParam : String) (ff : FontFormat)
    (cap m : String)
    (h1 : isFailureStatus
      (http.getCss ff.agent (family ++ ":" ++ weight) subsetParam).status = false)
    (h2 : findMatchesStr
      (http.getCss ff.agent (family ++ ":" ++ weight) subsetParam).body = [(cap, m)])
    (h3 : isFailureStatus (http.getAsset ff.agent cap).status = false)
    (h4 : '.' ∉ cap.data) :
    stepFormat http family weight base subsetParam ff = .error .indexError := by
  have hnone : urlExtension cap = none := by
    unfold urlExtension
    cases hx : afterLast '.' cap.data with
    | none => rfl
    | some r =>
      have : '.' ∈ cap.data := (afterLast_isSome '.' cap.data).mp (by simp [hx])
      exact absurd this h4
  unfold stepFormat
  rw [if_neg (by simp [h1]), h2]
  simp only
  rw [if_neg (by simp [h3]), hnone]

theorem stepFormat_ok_shape (http : Http)
    (family weight base subsetParam : String) (ff : FontFormat)
    (fn c cp : String)
    (h : stepFormat http family weight base subsetParam ff = .ok (fn, c, cp)) :
    ∃ t, fn = base ++ ("-" ++ t) := by
  simp only [stepFormat] at h
  split at h
  · exact absurd h (by simp)
  · split at h
    · next m =>
      split at h
      · exact absurd h (by simp)
      · split at h
        · next ext hext =>
          simp only [Except.ok.injEq, Prod.mk.injEq] at h
          obtain ⟨rfl, -, -⟩ := h
          exact ⟨weightLabel weight ++ ("." ++ ext), by simp [String.append_assoc]⟩
        · exact absurd h (by simp)
    · exact absurd h (by simp)

/-! ### Key uniqueness through the loops -/

theorem formatsLoop_keys_nodup (http : Http)
    (family weight base subsetParam : String) :
    ∀ (fmts : List FontFormat) (files : List (String × String))
      (fff : List (FontFormat × String)) (cp : String)
      (files' : List (String × String)) (fff' : List (FontFormat × String))
      (cp' : String),
      formatsLoop http family weight base subsetParam files fff cp fmts =
        .ok (files', fff', cp') →
      (files.map Prod.fst).Nodup → (files'.map Prod.fst).Nodup
  | [], files, fff, cp, files', fff', cp', h, hnd => by
    simp only [formatsLoop, Except.ok.injEq, Prod.mk.injEq] at h
    obtain ⟨rfl, -, -⟩ := h
    exact hnd
  | ff :: fmts', files, fff, cp, files', fff', cp', h, hnd => by
    simp only [formatsLoop] at h
    split at h
    · exact absurd h (by simp)
    · next fn c cp1 hstep =>
      exact formatsLoop_keys_nodup http family weight base subsetParam fmts' _ _ _
        files' fff' cp' h (dictInsert_keys_nodup files fn c hnd)

theorem weightsLoop_keys_nodup (http : Http) (family base subsetParam : String) :
    ∀ (ws : List String) (files : List (String × String)) (css : List String)
      (files' : List (String × String)) (css' : List String),
      weightsLoop http family base subsetParam files css ws = .ok (files', css') →
      (files.map Prod.fst).Nodup → (files'.map Prod.fst).Nodup
  | [], files, css, files', css', h, hnd => by
    simp only [weightsLoop, Except.ok.injEq, Prod.mk.injEq] at h
    obtain ⟨rfl, -⟩ := h
    exact hnd
  | w :: ws', files, css, files', css', h, hnd => by
    simp only [weightsLoop] at h
    split at h
    · exact absurd h (by simp)
    · next files2 fff cp hloop =>
      exact weightsLoop_keys_nodup http family base subsetParam ws' files2 _
        files' css' h
        (formatsLoop_keys_nodup http family w base subsetParam FONT_FORMATS
          files [] "" files2 fff cp hloop hnd)

theorem download_ok_keys_nodup (http : Http) (family : String)
    (weights subsets : List String) (italic : Bool)
    (m : List (String × String))
    (h : download_font_files http family weights subsets italic = .ok m) :
    (m.map Prod.fst).Nodup := by
  simp only [download_font_files] at h
  split at h
  · exact absurd h (by simp)
  · next files css hloop =>
    simp only [Except.ok.injEq] at h
    subst h
    exact dictInsert_keys_nodup files _ _
      (weightsLoop_keys_nodup http family _ _ _ [] [] files css hloop (by simp))

theorem base_dash_ne_css (base t : String) :
    base ++ ("-" ++ t) ≠ base ++ ".css" := by
  intro h
  have h2 : ("-" ++ t).data = (".css" : String).data := by
    have h1 := congrArg String.data h
    rw [String.data_append base ("-" ++ t), String.data_append base ".css"] at h1
    exact List.append_cancel_left h1
  rw [String.data_append "-" t] at h2
  have hd : ("-" : String).data = ['-'] := rfl
  have hcss : (".css" : String).data = ['.', 'c', 's', 's'] := rfl
  rw [hd, hcss] at h2
  simp at h2

theorem weightsLoop_ok_of (http : Http) (family base subsetParam : String) :
    ∀ (ws : List String) (files : List (String × String)) (css : List String),
      (∀ w ∈ ws, stepSucceeds http family w base subsetParam woffFormat = true ∧
                 stepSucceeds http family w base subsetParam woff2Format = true) →
      (files.map Prod.fst ++
        (ws.map (fun w =>
          (weightEntries http family base subsetParam w).map Prod.fst)).flatten).Nodup →
      weightsLoop http family base subsetParam files css ws =
        .ok (files ++ (ws.map (weightEntries http family base subsetParam)).flatten,
             css ++ ws.map (weightSnippet http family base subsetParam))
  | [], files, css, _, _ => by simp [weightsLoop]
  | w :: ws', files, css, hok, hnd => by
    have e1 := stepFormat_eq_of_succeeds http family w base subsetParam woffFormat
      (hok w (by simp)).1
    have e2 := stepFormat_eq_of_succeeds http family w base subsetParam woff2Format
      (hok w (by simp)).2
    have hnd0 := hnd
    simp only [List.map_cons, List.flatten_cons] at hnd
    rw [show (weightEntries http family base subsetParam w).map Prod.fst =
        [stepFnName http family w base subsetParam woffFormat,
         stepFnName http family w base subsetParam woff2Format] from rfl] at hnd
    obtain ⟨hndf, hnd2, hdisj⟩ := List.nodup_append.mp hnd
    obtain ⟨hnd12, hndrest, hdisj2⟩ := List.nodup_append.mp hnd2
    rw [List.nodup_cons] at hnd12
    have hne12 : stepFnName http family w base subsetParam woffFormat ≠
        stepFnName http family w base subsetParam woff2Format := by
      simpa using hnd12.1
    have hfresh1 : stepFnName http family w base subsetParam woffFormat ∉
        files.map Prod.fst := fun hmem => hdisj hmem (by simp)
    have hfresh2 : stepFnName http family w base subsetParam woff2Format ∉
        files.map Prod.fst := fun hmem => hdisj hmem (by simp)
    simp only [weightsLoop]
    rw [formatsLoop_font_formats http family w base subsetParam files [] "", e1, e2]
    show weightsLoop http family base subsetParam
        (dictInsert
          (dictInsert files (stepFnName http family w base subsetParam woffFormat)
            (stepContent http family w base subsetParam woffFormat))
          (stepFnName http family w base subsetParam woff2Format)
          (stepContent http family w base subsetParam woff2Format))
        (css ++ [reSubStr
          (buildNewSrc
            [(woffFormat, stepFnName http family w base subsetParam woffFormat),
             (woff2Format, stepFnName http family w base subsetParam woff2Format)])
          (stepCssPart http family w base subsetParam woff2Format)]) ws' = _
    rw [dictInsert_fresh files _ _ hfresh1]
    rw [dictInsert_fresh _ _ _ (by simp [hfresh2, Ne.symm hne12])]
    have happ : files ++ [(stepFnName http family w base subsetParam woffFormat,
          stepContent http family w base subsetParam woffFormat)] ++
        [(stepFnName http family w base subsetParam woff2Format,
          stepContent http family w base subsetParam woff2Format)] =
        files ++ weightEntries http family base subsetParam w := by
      simp [weightEntries]
    rw [happ]
    rw [weightsLoop_ok_of http family base subsetParam ws'
      (files ++ weightEntries http family base subsetParam w)
      (css ++ [reSubStr
        (buildNewSrc
          [(woffFormat, stepFnName http family w base subsetParam woffFormat),
           (woff2Format, stepFnName http family w base subsetParam woff2Format)])
        (stepCssPart http family w base subsetParam woff2Format)])
      (fun w' hw' => hok w' (by simp [hw']))
      (by simpa [weightEntries] using hnd0)]
    simp [weightEntries, weightSnippet, List.append_assoc]

theorem expandWeights_true : ∀ (W : List String),
    expandWeights W true = (W.map (fun w => [w, w ++ "i"])).flatten
  | [] => rfl
  | w :: ws => by
    show ((List.zip (w :: ws) ((w :: ws).map (fun w => w ++ "i"))).map
        (fun p => [p.1, p.2])).flatten = _
    simp only [List.map_cons, List.zip_cons_cons, List.flatten_cons]
    rw [show ((List.zip ws (ws.map (fun w => w ++ "i"))).map
        (fun p => [p.1, p.2])).flatten = expandWeights ws true from rfl]
    rw [expandWeights_true ws]

theorem stepFormat_not_pattern_of_single (http : Http)
    (family weight base subsetParam : String) (ff : FontFormat)
    (a : String × String)
    (h1 : isFailureStatus
      (http.getCss ff.agent (family ++ ":" ++ weight) subsetParam).status = false)
    (hm : findMatchesStr
      (http.getCss ff.agent (family ++ ":" ++ weight) subsetParam).body = [a])
    (u : String) :
    stepFormat http family weight base subsetParam ff ≠
      .error (.patternMatchError u) := by
  obtain ⟨cap, mm⟩ := a
  simp only [stepFormat]
  rw [if_neg (by simp [h1]), hm]
  simp only
  split
  · simp
  · split
    · simp
    · simp

theorem download_error_of_first_step (http : Http) (family : String)
    (weights subsets : List String) (italic : Bool) (w : String)
    (rest : List String) (e : Err)
    (hws : expandWeights weights italic = w :: rest)
    (hstep : stepFormat http family w (get_base_filename family subsets)
      (pyJoin "," subsets) woffFormat = .error e) :
    download_font_files http family weights subsets italic = .error e := by
  apply download_eq_error
  rw [hws]
  apply weightsLoop_error_head
  exact formatsLoop_error_head http family w _ _ _ _ _ woffFormat [woff2Format] e hstep

theorem css_key_fresh (http : Http) (family base subsetParam : String)
    (ws : List String)
    (hok : ∀ w ∈ ws,
      stepSucceeds http family w base subsetParam woffFormat = true ∧
      stepSucceeds http family w base subsetParam woff2Format = true) :
    (base ++ ".css") ∉
      ((ws.map (weightEntries http family base subsetParam)).flatten).map Prod.fst := by
  intro hmem
  simp only [List.mem_map, List.mem_flatten] at hmem
  obtain ⟨p, ⟨l, hl, hpl⟩, hpk⟩ := hmem
  obtain ⟨w, hw, rfl⟩ := hl
  have h1 := stepFormat_eq_of_succeeds http family w base subsetParam woffFormat
    (hok w hw).1
  have h2 := stepFormat_eq_of_succeeds http family w base subsetParam woff2Format
    (hok w hw).2
  obtain ⟨t1, ht1⟩ := stepFormat_ok_shape http family w base subsetParam woffFormat
    _ _ _ h1
  obtain ⟨t2, ht2⟩ := stepFormat_ok_shape http family w base subsetParam woff2Format
    _ _ _ h2
  simp only [weightEntries, List.mem_cons, List.not_mem_nil, or_false] at hpl
  rcases hpl with rfl | rfl
  · exact base_dash_ne_css base t1 (by rw [← ht1]; exact hpk)
  · exact base_dash_ne_css base t2 (by rw [← ht2]; exact hpk)

/-! ### The claims -/

/-- C3: for every weight list W, italic=false leaves the expanded weight
list equal to W, and italic=true yields a list of length 2×|W| that is
exactly the interleaving (w1, w1+"i", w2, w2+"i", ...) preserving the
caller's ordering. -/
theorem spec_c3 (W : List String) :
    expandWeights W false = W ∧
    (expandWeights W true).length = 2 * W.length ∧
    expandWeights W true = (W.map (fun w => [w, w ++ "i"])).flatten := by
  refine ⟨rfl, ?_, expandWeights_true W⟩
  rw [expandWeights_true W]
  induction W with
  | nil => rfl
  | cons w ws ih =>
    simp at ih ⊢
    omega

/-- C4 (counterexample): the claim says the italic marker of weight "400i"
is replaced by "talic", giving label "400talic"; the code appends "talic"
to the whole weight, giving "400italic". -/
theorem spec_c4_cex :
    weightLabel "400i" = "400italic" ∧ weightLabel "400i" ≠ "400talic" := by
  constructor
  · decide
  · decide

/-- C4 (amended): the weight label used in local filenames is the weight
itself for non-italic weights and, for a weight ending in the italic
marker, the weight with the literal suffix "talic" appended (the marker is
kept, so weight "400i" yields label "400italic"). -/
theorem spec_c4 (w : String) :
    (pyEndsWithI w = false → weightLabel w = w) ∧
    (pyEndsWithI w = true → weightLabel w = w ++ "talic") := by
  constructor
  · intro h
    unfold weightLabel
    rw [if_neg (by simp [h])]
  · intro h
    unfold weightLabel
    rw [if_pos h]

/-- C4 (witness): the amended claim evaluated at weights "400" and "400i". -/
theorem spec_c4_witness :
    weightLabel "400" = "400" ∧ weightLabel "400i" = "400i" ++ "talic" :=
  ⟨(spec_c4 "400").1 (by decide), (spec_c4 "400i").2 (by decide)⟩



/-- C8: the base filename is the family lower-cased with spaces replaced by
underscores, then '-', then the subsets joined with underscores; in
particular get_base_filename "Open Sans" ["latin", "latin-ext"] is
"open_sans-latin_latin-ext". -/
theorem spec_c8 :
    (∀ (family : String) (subsets : List String),
      get_base_filename family subsets =
        replaceSpaces (lowerAscii family) ++ "-" ++ pyJoin "_" subsets) ∧
    get_base_filename "Open Sans" ["latin", "latin-ext"] =
      "open_sans-latin_latin-ext" := by
  exact ⟨fun family subsets => rfl, by decide⟩

/-- C5 (counterexample): the claim says the appended extension is the
suffix after the final dot of the URL's last path segment; for the URL
"http://a.com/file" the code's rsplit on the whole URL yields extension
"com/file", while the last path segment "file" contains no dot at all. -/
theorem spec_c5_cex :
    urlExtension "http://a.com/file" = some "com/file" ∧
    specLastSegmentExt "http://a.com/file" = none ∧
    urlExtension "http://a.com/file" ≠ specLastSegmentExt "http://a.com/file" := by
  refine ⟨by decide, by decide, by decide⟩

/-- C5 (amended): for every extracted asset URL whose last path segment
contains a dot, the extension appended to the local filename equals the
suffix after the final dot of the URL's last path segment. -/
theorem spec_c5 (url : String) (h : '.' ∈ lastPathSegment url) :
    urlExtension url = specLastSegmentExt url := by
  have hsome : (afterLast '.' (lastPathSegment url)).isSome = true :=
    (afterLast_isSome '.' (lastPathSegment url)).mpr h
  obtain ⟨r, hr⟩ := Option.isSome_iff_exists.mp hsome
  unfold urlExtension specLastSegmentExt
  rw [hr]
  unfold lastPathSegment at hr
  cases hseg : afterLast '/' url.data with
  | none =>
    rw [hseg] at hr
    simp only [Option.getD_none] at hr
    rw [hr]
  | some seg =>
    rw [hseg] at hr
    simp only [Option.getD_some] at hr
    obtain ⟨p, hp⟩ := afterLast_eq_some '/' url.data seg hseg
    have hurl : afterLast '.' url.data = some r := by
      rw [hp, show p ++ '/' :: seg = (p ++ ['/']) ++ seg by simp]
      exact afterLast_append_right '.' (p ++ ['/']) seg r hr
    rw [hurl]

/-- C5 (witness): the amended claim evaluated at the URL "a.b/c.d", whose
last path segment "c.d" contains a dot; both sides evaluate to "d". -/
theorem spec_c5_witness :
    '.' ∈ lastPathSegment "a.b/c.d" ∧
    urlExtension "a.b/c.d" = specLastSegmentExt "a.b/c.d" :=
  ⟨by decide, spec_c5 "a.b/c.d" (by decide)⟩

/-- C10: the extension derivation rsplit('.', 1)[1] is total exactly when
the extracted URL contains a dot; when the single extracted asset URL has
no dot (and both HTTP requests succeed), the per-format step of
download_font_files fails with the IndexError, which is neither the HTTP
error nor the pattern-match error. -/
theorem spec_c10 :
    (∀ url : String, (urlExtension url).isSome = true ↔ '.' ∈ url.data) ∧
    (∀ (http : Http) (family weight base subsetParam : String)
       (ff : FontFormat) (cap m : String),
      isFailureStatus
        (http.getCss ff.agent (family ++ ":" ++ weight) subsetParam).status = false →
      findMatchesStr
        (http.getCss ff.agent (family ++ ":" ++ weight) subsetParam).body = [(cap, m)] →
      isFailureStatus (http.getAsset ff.agent cap).status = false →
      '.' ∉ cap.data →
      stepFormat http family weight base subsetParam ff = .error .indexError) ∧
    (∀ (s : Nat) (u : String),
      Err.indexError ≠ Err.httpError s ∧ Err.indexError ≠ Err.patternMatchError u) := by
  refine ⟨?_, ?_, ?_⟩
  · intro url
    unfold urlExtension
    rw [Option.isSome_map']
    exact afterLast_isSome '.' url.data
  · intro http family weight base subsetParam ff cap m h1 h2 h3 h4
    exact stepFormat_noDot http family weight base subsetParam ff cap m h1 h2 h3 h4
  · intro s u
    exact ⟨fun h => Err.noConfusion h, fun h => Err.noConfusion h⟩

/-- C10 (witness): in an environment whose CSS references the dotless URL
"nodot", the step fails with the IndexError. -/
theorem spec_c10_witness :
    stepFormat httpNoDot "F" "400" "f-s" "s" woffFormat = .error .indexError :=
  spec_c10.2.1 httpNoDot "F" "400" "f-s" "s" woffFormat "nodot" "src: url(nodot)x\n"
    (by decide) (by decide) (by decide) (by decide)

/-- C2: with a non-failure CSS status, the per-format step of
download_font_files fails with the pattern-match error (naming the queried
URL) iff the number of FONT_URL_RE matches in the CSS body is not exactly
one; and when the first processed weight fails this way, the whole call
returns that error and no bundle. -/
theorem spec_c2 (http : Http) (family weight base subsetParam : String)
    (ff : FontFormat)
    (h1 : isFailureStatus
      (http.getCss ff.agent (family ++ ":" ++ weight) subsetParam).status = false) :
    (stepFormat http family weight base subsetParam ff =
        .error (.patternMatchError
          (http.getCss ff.agent (family ++ ":" ++ weight) subsetParam).url) ↔
      (findMatchesStr
        (http.getCss ff.agent (family ++ ":" ++ weight) subsetParam).body).length ≠ 1) ∧
    (∀ (weights subsets : List String) (italic : Bool) (rest : List String),
      expandWeights weights italic = weight :: rest →
      (findMatchesStr
        (http.getCss woffFormat.agent (family ++ ":" ++ weight)
          (pyJoin "," subsets)).body).length ≠ 1 →
      isFailureStatus
        (http.getCss woffFormat.agent (family ++ ":" ++ weight)
          (pyJoin "," subsets)).status = false →
      download_font_files http family weights subsets italic =
        .error (.patternMatchError
          (http.getCss woffFormat.agent (family ++ ":" ++ weight)
            (pyJoin "," subsets)).url) ∧
      ∀ m, download_font_files http family weights subsets italic ≠ .ok m) := by
  constructor
  · constructor
    · intro hEq hlen
      obtain ⟨a, ha⟩ := List.length_eq_one.mp hlen
      exact stepFormat_not_pattern_of_single http family weight base subsetParam
        ff a h1 ha _ hEq
    · intro hlen
      exact stepFormat_patternFail http family weight base subsetParam ff h1 hlen
  · intro weights subsets italic rest hws hlen hcss
    have herr := stepFormat_patternFail http family weight
      (get_base_filename family subsets) (pyJoin "," subsets) woffFormat hcss hlen
    have hd := download_error_of_first_step http family weights subsets italic
      weight rest _ hws herr
    exact ⟨hd, fun m hok => by rw [hd] at hok; exact (by simp at hok)⟩

/-- C2 (witness): in an environment whose CSS body has zero matches, the
whole call fails with the pattern-match error and returns no bundle. -/
theorem spec_c2_witness :
    download_font_files httpNoMatch "F" ["400"] ["s"] false =
      .error (.patternMatchError "cssnm") ∧
    ∀ m, download_font_files httpNoMatch "F" ["400"] ["s"] false ≠ .ok m :=
  (spec_c2 httpNoMatch "F" "400" (get_base_filename "F" ["s"])
    (pyJoin "," ["s"]) woffFormat (by decide)).2
    ["400"] ["s"] false [] (by decide) (by decide) (by decide)

/-- C1: download_font_files is atomic: an error result excludes any bundle,
and each kind of upstream failure at the first processed weight (CSS
endpoint failure status, pattern-match failure, asset endpoint failure
status) propagates out of the whole call as the corresponding error, so no
partial mapping is ever returned. -/
theorem spec_c1 (http : Http) (family : String) (weights subsets : List String)
    (italic : Bool) (w : String) (rest : List String)
    (hws : expandWeights weights italic = w :: rest) :
    (∀ e, download_font_files http family weights subsets italic = .error e →
      ∀ m, download_font_files http family weights subsets italic ≠ .ok m) ∧
    (isFailureStatus (http.getCss woffFormat.agent (family ++ ":" ++ w)
        (pyJoin "," subsets)).status = true →
      download_font_files http family weights subsets italic =
        .error (.httpError (http.getCss woffFormat.agent (family ++ ":" ++ w)
          (pyJoin "," subsets)).status)) ∧
    (isFailureStatus (http.getCss woffFormat.agent (family ++ ":" ++ w)
        (pyJoin "," subsets)).status = false →
      (findMatchesStr (http.getCss woffFormat.agent (family ++ ":" ++ w)
        (pyJoin "," subsets)).body).length ≠ 1 →
      download_font_files http family weights subsets italic =
        .error (.patternMatchError (http.getCss woffFormat.agent
          (family ++ ":" ++ w) (pyJoin "," subsets)).url)) ∧
    (∀ cap m2,
      isFailureStatus (http.getCss woffFormat.agent (family ++ ":" ++ w)
        (pyJoin "," subsets)).status = false →
      findMatchesStr (http.getCss woffFormat.agent (family ++ ":" ++ w)
        (pyJoin "," subsets)).body = [(cap, m2)] →
      isFailureStatus (http.getAsset woffFormat.agent cap).status = true →
      download_font_files http family weights subsets italic =
        .error (.httpError (http.getAsset woffFormat.agent cap).status)) := by
  refine ⟨?_, ?_, ?_, ?_⟩
  · intro e he m hok
    rw [he] at hok
    exact Except.noConfusion hok
  · intro h
    exact download_error_of_first_step http family weights subsets italic w rest _
      hws (stepFormat_cssFail http family w _ _ woffFormat h)
  · intro h hlen
    exact download_error_of_first_step http family weights subsets italic w rest _
      hws (stepFormat_patternFail http family w _ _ woffFormat h hlen)
  · intro cap m2 h hm hasset
    exact download_error_of_first_step http family weights subsets italic w rest _
      hws (stepFormat_assetFail http family w _ _ woffFormat cap m2 h hm hasset)

/-- C1 (witness): with a CSS endpoint answering 404, the whole call fails
with that HTTP error and no bundle is returned. -/
theorem spec_c1_witness :
    download_font_files httpBadStatus "F" ["400"] ["s"] false =
      .error (.httpError 404) ∧
    ∀ m, download_font_files httpBadStatus "F" ["400"] ["s"] false ≠ .ok m := by
  have h := spec_c1 httpBadStatus "F" ["400"] ["s"] false "400" [] (by decide)
  have hd := h.2.1 (by decide)
  exact ⟨hd, h.1 _ hd⟩

/-- C6: whenever the format loop for a weight succeeds, the recorded
format/filename pairs are [woff, woff2] in format-list order and the
generated src declaration lists them in reverse — the woff2 entry before
the woff entry — each entry formatted as url('<file>') format('<fmt>'). -/
theorem spec_c6 (http : Http) (family weight base subsetParam : String)
    (files0 files' : List (String × String)) (fff : List (FontFormat × String))
    (cp : String)
    (h : formatsLoop http family weight base subsetParam files0 [] "" FONT_FORMATS =
      .ok (files', fff, cp)) :
    ∃ fn1 fn2,
      fff = [(woffFormat, fn1), (woff2Format, fn2)] ∧
      buildNewSrc fff =
        "src: url('" ++ fn2 ++ "') format('woff2'),\n       url('" ++ fn1 ++
          "') format('woff');\n" := by
  rw [formatsLoop_font_formats] at h
  split at h
  · exact absurd h (by simp)
  · next fn1 c1 cp1 h1 =>
    split at h
    · exact absurd h (by simp)
    · next fn2 c2 cp2 h2 =>
      simp only [Except.ok.injEq, Prod.mk.injEq] at h
      obtain ⟨-, hf, -⟩ := h
      refine ⟨fn1, fn2, by rw [← hf]; rfl, ?_⟩
      rw [← hf]
      show buildNewSrc [(woffFormat, fn1), (woff2Format, fn2)] = _
      apply String.ext
      simp [buildNewSrc, pyJoin, woffFormat, woff2Format,
        String.data_append, List.append_assoc]

/-- C6 (witness): the src-list ordering evaluated in a concrete successful
environment. -/
theorem spec_c6_witness :
    ∃ (fn1 fn2 : String) (fff : List (FontFormat × String)),
      fff = [(woffFormat, fn1), (woff2Format, fn2)] ∧
      buildNewSrc fff =
        "src: url('" ++ fn2 ++ "') format('woff2'),\n       url('" ++ fn1 ++
          "') format('woff');\n" := by
  obtain ⟨fn1, fn2, hf, hb⟩ := spec_c6 httpGood "F" "400" "f-s" "s" [] _ _ _ (by rfl)
  exact ⟨fn1, fn2, _, hf, hb⟩

/-- C9: for every CSS text in which FONT_URL_RE matches exactly once,
substituting a replacement for the matched span leaves all text outside the
matched span byte-identical: the text splits as pre ++ matched ++ post and
the substitution result is pre ++ replacement ++ post. -/
theorem spec_c9 (s repl cap m : String) (h : findMatchesStr s = [(cap, m)]) :
    ∃ pre post : String,
      s = pre ++ m ++ post ∧ reSubStr repl s = pre ++ repl ++ post := by
  unfold findMatchesStr at h
  cases hl : findMatches s.data with
  | nil => rw [hl] at h; exact absurd h (by simp)
  | cons a t =>
    obtain ⟨capl, ml⟩ := a
    rw [hl] at h
    cases t with
    | cons b t' => exact absurd h (by simp)
    | nil =>
      simp only [List.map_cons, List.map_nil, List.cons.injEq, Prod.mk.injEq,
        and_true] at h
      obtain ⟨-, hm⟩ := h
      obtain ⟨pre, after, h1, h2, h3⟩ :=
        findMatches_head_decomp s.data.length s.data (le_refl _) capl ml [] hl
      refine ⟨⟨pre⟩, ⟨after⟩, ?_, ?_⟩
      · apply String.ext
        rw [String.data_append (⟨pre⟩ ++ m) ⟨after⟩,
          String.data_append ⟨pre⟩ m, ← hm]
        simpa using h1
      · apply String.ext
        show reSub repl.data s.data = _
        rw [h3 repl.data,
          reSub_of_no_match after.length after (le_refl _) h2 repl.data,
          String.data_append (⟨pre⟩ ++ repl) ⟨after⟩,
          String.data_append ⟨pre⟩ repl]

/-- C9 (witness): the frame property evaluated on a concrete snippet with
exactly one match. -/
theorem spec_c9_witness :
    ∃ pre post : String,
      "a\nsrc: url(u.woff)x\nb" = pre ++ "src: url(u.woff)x\n" ++ post ∧
      reSubStr "R" "a\nsrc: url(u.woff)x\nb" = pre ++ "R" ++ post :=
  spec_c9 "a\nsrc: url(u.woff)x\nb" "R" "u.woff" "src: url(u.woff)x\n" (by decide)

/-- C7: on success the returned mapping always has unique keys; and when
every per-format step succeeds and the generated font filenames are
pairwise distinct, the mapping is exactly the per-weight entries in weight
iteration order — each weight contributing its two font-format files in
format-list order — followed by the combined CSS file under key
"<baseFilename>.css", inserted last. -/
theorem spec_c7 (http : Http) (family : String) (weights subsets : List String)
    (italic : Bool) :
    (∀ m, download_font_files http family weights subsets italic = .ok m →
      (m.map Prod.fst).Nodup) ∧
    ((∀ w ∈ expandWeights weights italic,
        stepSucceeds http family w (get_base_filename family subsets)
          (pyJoin "," subsets) woffFormat = true ∧
        stepSucceeds http family w (get_base_filename family subsets)
          (pyJoin "," subsets) woff2Format = true) →
      ((expandWeights weights italic).map (fun w =>
        (weightEntries http family (get_base_filename family subsets)
          (pyJoin "," subsets) w).map Prod.fst)).flatten.Nodup →
      ∃ m, download_font_files http family weights subsets italic = .ok m ∧
        m = ((expandWeights weights italic).map
            (weightEntries http family (get_base_filename family subsets)
              (pyJoin "," subsets))).flatten ++
          [(get_base_filename family subsets ++ ".css",
            pyJoin "\n" ((expandWeights weights italic).map
              (weightSnippet http family (get_base_filename family subsets)
                (pyJoin "," subsets))))] ∧
        m.map Prod.fst =
          ((expandWeights weights italic).map (fun w =>
            (weightEntries http family (get_base_filename family subsets)
              (pyJoin "," subsets) w).map Prod.fst)).flatten ++
            [get_base_filename family subsets ++ ".css"]) := by
  constructor
  · exact download_ok_keys_nodup http family weights subsets italic
  · intro hok hnd
    have hwl := weightsLoop_ok_of http family (get_base_filename family subsets)
      (pyJoin "," subsets) (expandWeights weights italic) [] [] hok
      (by simpa using hnd)
    have hfresh := css_key_fresh http family (get_base_filename family subsets)
      (pyJoin "," subsets) (expandWeights weights italic) hok
    have hdl : download_font_files http family weights subsets italic =
        .ok (((expandWeights weights italic).map
            (weightEntries http family (get_base_filename family subsets)
              (pyJoin "," subsets))).flatten ++
          [(get_base_filename family subsets ++ ".css",
            pyJoin "\n" ((expandWeights weights italic).map
              (weightSnippet http family (get_base_filename family subsets)
                (pyJoin "," subsets))))]) := by
      simp only [download_font_files]
      rw [hwl]
      show Except.ok (dictInsert
        ([] ++ ((expandWeights weights italic).map
          (weightEntries http family (get_base_filename family subsets)
            (pyJoin "," subsets))).flatten)
        (get_base_filename family subsets ++ ".css")
        (pyJoin "\n" ([] ++ (expandWeights weights italic).map
          (weightSnippet http family (get_base_filename family subsets)
            (pyJoin "," subsets))))) = _
      rw [dictInsert_fresh _ _ _ (by simpa using hfresh)]
      simp
    refine ⟨_, hdl, rfl, ?_⟩
    simp
    rfl

/-- C7 (witness): the claim evaluated in a fully successful concrete
environment with one weight; the keys are the woff file, the woff2 file
and lastly the combined CSS file. -/
theorem spec_c7_witness :
    (∃ m, download_font_files httpGood "F" ["400"] ["s"] false = .ok m ∧
      m.map Prod.fst = ["f-s-400.woff", "f-s-400.woff2", "f-s.css"]) := by
  obtain ⟨m, hdl, -, hkeys⟩ :=
    (spec_c7 httpGood "F" ["400"] ["s"] false).2 (by decide) (by decide)
  refine ⟨m, hdl, ?_⟩
  rw [hkeys]
  decide

end GF
